import Mathlib

/-!
Verification of the `nlp` package's parallel collapsed Gibbs sampler for LDA.

The Go source keeps all counts in `float32`. Within the sampler every count
is an integer far below 2^24, where `float32` arithmetic on increments and
decrements by 1 is exact, so counts and sums are modelled by `ℚ`.
The one place where floating-point behaviour itself matters (division by a
zero sum in `dist()`) is modelled by an explicit value type `FVal` that
distinguishes finite results, infinity and NaN.

Panics in the Go source are modelled by `Except`: a panic aborts the whole
call, which corresponds to the error propagating out through every bind.
Randomness (`rand.Intn`, `rand.Float32`) is modelled by oracle inputs: `u`
stands for the drawn integer (used modulo the range size, as `Intn` draws
uniformly over it) and `r` for the drawn float in `[0,1)`.
-/

namespace nlp

/-- Errors corresponding to the panics inside the sampler's helpers. -/
inductive Err where
  /-- `pickRandom`: "Cannot pick element from an empty distribution." -/
  | emptyDist
  /-- `pickRandom`: "Got negative value in distribution." -/
  | negativeWeight
  /-- `dist.sub`: "Reached negative count for i." -/
  | negativeCount
deriving DecidableEq

/-- The Go struct `dist`: a distribution on elements by counts.
`sum` and the entries of `count` are `float32` in the source; they only ever
hold exact small integers, modelled by `ℚ`. -/
structure Dist where
  sum : ℚ
  count : List ℚ
  alpha : ℚ
  alphas : ℚ
deriving DecidableEq

/-- Go `newDist(n, alpha)`: a fresh table of `n` zero counts with
`alphas = alpha * n`. -/
def newDist (n : ℕ) (alpha : ℚ) : Dist :=
  ⟨0, List.replicate n 0, alpha, alpha * (n : ℚ)⟩

/-- Go `newDists(k, n, alpha)`: `k` fresh tables. -/
def newDists (k n : ℕ) (alpha : ℚ) : List Dist :=
  List.replicate k (newDist n alpha)

/-- Go `(*dist).add(i)`: increments `count[i]` and `sum`. -/
def Dist.add (d : Dist) (i : ℕ) : Dist :=
  { d with count := d.count.set i (d.count.getD i 0 + 1), sum := d.sum + 1 }

/-- Go `(*dist).sub(i)`: decrements `count[i]` and `sum`, and panics when the
decremented `count[i]` is negative. -/
def Dist.sub (d : Dist) (i : ℕ) : Except Err Dist :=
  let c := d.count.getD i 0 - 1
  if c < 0 then .error .negativeCount
  else .ok { d with count := d.count.set i c, sum := d.sum - 1 }

/-- Go `(*dist).p(i)`: the smoothed probability of `i`, `0` when `sum == 0`.
When `sum ≠ 0` and `alphas ≥ 0` the denominator is nonzero, so rational
division agrees with the source's float division. -/
def Dist.p (d : Dist) (i : ℕ) : ℚ :=
  if d.sum = 0 then 0
  else (d.count.getD i 0 + d.alpha * d.sum) / (d.sum + d.alphas * d.sum)

/-- Outcome of a float division whose operands are non-negative:
either a finite value, `+Inf`, or `NaN`. -/
inductive FVal where
  | fin (q : ℚ)
  | inf
  | nan
deriving DecidableEq

/-- IEEE division for non-negative operands: `0/0 = NaN`, `x/0 = +Inf` for
`x ≠ 0`, otherwise the exact quotient. -/
def fdiv (x y : ℚ) : FVal :=
  if y = 0 then (if x = 0 then .nan else .inf) else .fin (x / y)

/-- Go `(*dist).dist()`: the counts normalized by the sum, with no guard on
`sum == 0` — the division is performed unconditionally. -/
def Dist.dist (d : Dist) : List FVal :=
  d.count.map (fun c => fdiv c d.sum)

/-- Go `(*dist).top(n)`: index permutation sorted by descending count
(`distSorter.Less` is `count[perm[i]] > count[perm[j]]`; `sort.Sort` is an
unstable sort, so ties may land in any order), with `n` clipped to the table
size and the first `n` indices returned. -/
def Dist.top (d : Dist) (n : ℕ) : List ℕ :=
  let perm := (List.range d.count.length).mergeSort
    (fun i j => decide (d.count.getD j 0 ≤ d.count.getD i 0))
  let n' := if n > perm.length then perm.length else n
  perm.take n'

/-- Go `pickRandom`'s cumulative scan: the number of loop iterations of
`for i < len(a) && r > a[i] { r -= a[i]; i++ }`. -/
def scanLen : List ℚ → ℚ → ℕ
  | [], _ => 0
  | x :: rest, r => if r > x then scanLen rest (r - x) + 1 else 0

/-- Go `pickRandom(a, rnd)`: panics on an empty slice or a negative weight,
falls back to `rnd.Intn(len(a))` (oracle `u`, taken modulo the size) when the
weights sum to zero, and otherwise scans cumulatively with
`r' = rnd.Float32() * sum` (oracle `r`), clamping the end-of-slice case back
to the last index. -/
def pickRandom (a : List ℚ) (u : ℕ) (r : ℚ) : Except Err ℕ :=
  if a.length = 0 then .error .emptyDist
  else if a.any (fun x => decide (x < 0)) then .error .negativeWeight
  else if a.sum = 0 then .ok (u % a.length)
  else
    let i := scanLen a (r * a.sum)
    .ok (if i = a.length then i - 1 else i)

/-- The convergence monitor's state in `LdaThreads`: `lastChange` and
`breakSignals`. -/
structure Monitor where
  lastChange : ℕ
  breakSignals : ℕ
deriving DecidableEq

/-- One round of the halting check in `LdaThreads` (source lines 174-181):
`if len(changeMap) >= lastChange { breakSignals++; if breakSignals == 5
{ break } }; lastChange = len(changeMap)`. Returns the new state and whether
the loop breaks. -/
def monitorStep (m : Monitor) (c : ℕ) : Monitor × Bool :=
  if m.lastChange ≤ c then
    (⟨c, m.breakSignals + 1⟩, m.breakSignals + 1 == 5)
  else
    (⟨c, m.breakSignals⟩, false)

/-- Runs the monitor over the successive change-set sizes of the rounds and
returns the index of the round at which the loop breaks, if any. -/
def runMonitor (m : Monitor) : List ℕ → Option ℕ
  | [] => none
  | c :: cs =>
    let s := monitorStep m c
    if s.2 then some 0 else (runMonitor s.1 cs).map (· + 1)

/-- Modelled from the spec's words for comparison with `monitorStep` (the
claim's version of the convergence monitor): identical except that a round
with `c < lastChange` RESETS the stagnation counter to zero. -/
def monitorStepClaim (m : Monitor) (c : ℕ) : Monitor × Bool :=
  if m.lastChange ≤ c then
    (⟨c, m.breakSignals + 1⟩, m.breakSignals + 1 == 5)
  else
    (⟨c, 0⟩, false)

/-- Runs the claim's version of the monitor. -/
def runMonitorClaim (m : Monitor) : List ℕ → Option ℕ
  | [] => none
  | c :: cs =>
    let s := monitorStepClaim m c
    if s.2 then some 0 else (runMonitorClaim s.1 cs).map (· + 1)

/-- The number of non-reducing rounds in a list of change-set sizes, where a
round is non-reducing when its size is at least the previous one (seeded with
`last`). -/
def nrCount (last : ℕ) : List ℕ → ℕ
  | [] => 0
  | c :: cs => (if last ≤ c then 1 else 0) + nrCount c cs

/-- C1 counterexample: the code's monitor halts on the round sequence
`[10,10,10,10,5,5]` (five cumulative non-reducing rounds, interrupted by a
reducing round), while the claim's reset-to-zero monitor does not halt there:
the code never resets the stagnation counter, so the five non-reducing rounds
need not be consecutive. -/
theorem c1_counterexample :
    runMonitor ⟨10, 0⟩ [10, 10, 10, 10, 5, 5] = some 5
    ∧ runMonitorClaim ⟨10, 0⟩ [10, 10, 10, 10, 5, 5] = none := by
  exact ⟨rfl, rfl⟩

/-- C1 amended: each round, if the change-set size `c` satisfies
`c ≥ lastChange` the stagnation counter is incremented, otherwise it is left
unchanged (never reset); then `lastChange = c`. The loop halts at round `n`
exactly when the cumulative number of non-reducing rounds reaches 5 there —
the five non-reducing rounds need not be consecutive. -/
theorem c1_monitor_amended : ∀ (cs : List ℕ) (m : Monitor) (n : ℕ),
    runMonitor m cs = some n ↔
      n < cs.length
      ∧ m.breakSignals + nrCount m.lastChange (List.take (n+1) cs) = 5
      ∧ m.breakSignals + nrCount m.lastChange (List.take n cs) = 4 := by
  intro cs
  induction cs with
  | nil => intro m n; simp [runMonitor]
  | cons c cs ih =>
    intro m n
    by_cases hle : m.lastChange ≤ c
    · by_cases h4 : m.breakSignals = 4
      · cases n with
        | zero =>
          simp [runMonitor, monitorStep, hle, h4, nrCount]
        | succ n =>
          simp [runMonitor, monitorStep, hle, h4, nrCount, List.take_succ_cons]
      · cases n with
        | zero =>
          simp [runMonitor, monitorStep, hle, h4, nrCount]
        | succ n =>
          simp [runMonitor, monitorStep, hle, h4, nrCount, List.take_succ_cons, ih]
          omega
    · cases n with
      | zero =>
        simp [runMonitor, monitorStep, hle, nrCount]
        omega
      | succ n =>
        simp [runMonitor, monitorStep, hle, nrCount, List.take_succ_cons, ih]

/-- The cumulative scan never takes more steps than the slice has entries. -/
theorem scanLen_le : ∀ (a : List ℚ) (r : ℚ), scanLen a r ≤ a.length
  | [], _ => Nat.le_refl 0
  | x :: rest, r => by
    simp only [scanLen, List.length_cons]
    split
    · exact Nat.succ_le_succ (scanLen_le rest _)
    · exact Nat.zero_le _

/-- C5: the weighted random draw fails with the invalid-argument panic when
the slice is empty, fails with the negative-weight panic when any weight is
negative, and when all weights are exactly zero (and the slice nonempty) it
returns the uniform draw `u % len` — a valid index, and every index is
reached by some draw — instead of failing. -/
theorem c5_pickRandom_errors_and_uniform (a : List ℚ) (u : ℕ) (r : ℚ) :
    (a.length = 0 → pickRandom a u r = .error .emptyDist)
    ∧ ((∃ x ∈ a, x < 0) → pickRandom a u r = .error .negativeWeight)
    ∧ ((∀ x ∈ a, x = 0) → a.length ≠ 0 →
        pickRandom a u r = .ok (u % a.length)
        ∧ u % a.length < a.length
        ∧ ∀ i, i < a.length → pickRandom a i r = .ok i) := by
  refine ⟨fun h0 => by simp [pickRandom, h0], fun ⟨x, hx, hxneg⟩ => ?_, fun hz hne => ?_⟩
  · have hne : a.length ≠ 0 := by
      cases a with
      | nil => cases hx
      | cons y ys => simp
    have hany : a.any (fun x => decide (x < 0)) = true :=
      List.any_eq_true.mpr ⟨x, hx, by simpa using hxneg⟩
    simp [pickRandom, hne, hany]
  · have hany : a.any (fun x => decide (x < 0)) = false := by
      simp only [List.any_eq_false, decide_eq_true_eq]
      intro x hx
      rw [hz x hx]
      exact lt_irrefl 0
    have hsum : a.sum = 0 := List.sum_eq_zero hz
    refine ⟨by simp [pickRandom, hne, hany, hsum], Nat.mod_lt _ (Nat.pos_of_ne_zero hne), ?_⟩
    intro i hi
    have : i % a.length = i := Nat.mod_eq_of_lt hi
    simp [pickRandom, hne, hany, hsum, this]

/-- C5 witness: on the all-zero weight slice `[0,0,0]` the draw succeeds with
the uniform index `5 % 3` instead of failing. -/
theorem c5_witness :
    pickRandom [(0:ℚ), 0, 0] 5 7 = .ok (5 % [(0:ℚ), 0, 0].length)
    ∧ 5 % [(0:ℚ), 0, 0].length < [(0:ℚ), 0, 0].length := by
  have h := (c5_pickRandom_errors_and_uniform [(0:ℚ), 0, 0] 5 7).2.2
    (by intro x hx; simp at hx; simp [hx]) (by simp)
  exact ⟨h.1, h.2.1⟩

/-- C9: for any nonempty weight slice with no negative entries and any state
of the random source, the draw succeeds and returns an index strictly inside
`[0, len)`; the cumulative scan is clamped back to the last index when it
runs off the end. -/
theorem c9_pick_in_range (a : List ℚ) (u : ℕ) (r : ℚ) (hne : a ≠ [])
    (hnn : ∀ x ∈ a, 0 ≤ x) :
    ∃ i, pickRandom a u r = .ok i ∧ i < a.length := by
  have hl : a.length ≠ 0 := by simpa using hne
  have hpos : 0 < a.length := Nat.pos_of_ne_zero hl
  have hany : a.any (fun x => decide (x < 0)) = false := by
    simp only [List.any_eq_false, decide_eq_true_eq]
    intro x hx
    exact not_lt.mpr (hnn x hx)
  by_cases hs : a.sum = 0
  · exact ⟨u % a.length, by simp [pickRandom, hl, hany, hs], Nat.mod_lt _ hpos⟩
  · have hlt := scanLen_le a (r * a.sum)
    by_cases he : scanLen a (r * a.sum) = a.length
    · exact ⟨a.length - 1, by simp [pickRandom, hl, hany, hs, he], by omega⟩
    · exact ⟨scanLen a (r * a.sum), by simp [pickRandom, hl, hany, hs, he], by omega⟩

/-- C9 witness: a concrete in-range draw on `[1/2, 1/2]`. -/
theorem c9_witness :
    [(1:ℚ)/2, 1/2] ≠ []
    ∧ ∃ i, pickRandom [(1:ℚ)/2, 1/2] 0 (1/3) = .ok i ∧ i < [(1:ℚ)/2, 1/2].length := by
  refine ⟨by simp, c9_pick_in_range _ 0 (1/3) (by simp) ?_⟩
  intro x hx
  simp at hx
  rw [hx]
  positivity

/-- The program invariant of a count table: `sum` equals the total of
`count[]` and no entry is negative. -/
def Dist.Wf (d : Dist) : Prop :=
  d.sum = d.count.sum ∧ ∀ x ∈ d.count, 0 ≤ x

theorem sum_set_getD : ∀ (l : List ℚ) (i : ℕ) (x : ℚ), i < l.length →
    (l.set i x).sum = l.sum - l.getD i 0 + x
  | [], i, x, hi => absurd hi (by simp)
  | c :: l, 0, x, _ => by simp; ring
  | c :: l, i + 1, x, hi => by
    simp only [List.set_cons_succ, List.sum_cons, List.getD_cons_succ]
    rw [sum_set_getD l i x (by simpa using hi)]
    ring

/-- Every table the sampler creates satisfies `Wf`: fresh tables do, and
`add` preserves it (so the invariant hypotheses of the theorems below hold
for all program states). -/
theorem add_wf (d : Dist) (i : ℕ) (hwf : d.Wf) (hi : i < d.count.length) :
    (d.add i).Wf := by
  have hgi : 0 ≤ d.count.getD i 0 := by
    rw [List.getD_eq_getElem?_getD, List.getElem?_eq_getElem hi]
    exact hwf.2 _ (List.getElem_mem hi)
  constructor
  · show d.sum + 1 = (d.count.set i (d.count.getD i 0 + 1)).sum
    rw [sum_set_getD d.count i _ hi, ← hwf.1]
    ring
  · intro x hx
    rcases List.mem_or_eq_of_mem_set hx with hmem | heq
    · exact hwf.2 x hmem
    · rw [heq]
      linarith

/-- `sub` also preserves `Wf` whenever it succeeds. -/
theorem sub_wf (d d' : Dist) (i : ℕ) (hwf : d.Wf) (hi : i < d.count.length)
    (h : d.sub i = .ok d') : d'.Wf := by
  have key : d.sub i = if d.count.getD i 0 - 1 < 0 then Except.error Err.negativeCount
      else Except.ok ⟨d.sum - 1, d.count.set i (d.count.getD i 0 - 1),
        d.alpha, d.alphas⟩ := rfl
  rw [key] at h
  split at h
  · cases h
  · rename_i hge
    push_neg at hge
    simp only [Except.ok.injEq] at h
    rw [← h]
    constructor
    · show d.sum - 1 = (d.count.set i (d.count.getD i 0 - 1)).sum
      rw [sum_set_getD d.count i _ hi, ← hwf.1]
      ring
    · intro x hx
      rcases List.mem_or_eq_of_mem_set hx with hmem | heq
      · exact hwf.2 x hmem
      · rw [heq]
        linarith

/-- C6: `sub(i)` fails with the internal-invariant panic exactly when the
decrement would drive `count[i]` negative, i.e. when `count[i] < 1` before
the call; otherwise it decrements both `count[i]` and `sum` by one and
succeeds. -/
theorem c6_sub_fails_iff (d : Dist) (i : ℕ) (h : i < d.count.length) :
    (d.sub i = .error .negativeCount ↔ d.count.getD i 0 < 1)
    ∧ (1 ≤ d.count.getD i 0 →
        d.sub i = .ok ⟨d.sum - 1, d.count.set i (d.count.getD i 0 - 1),
          d.alpha, d.alphas⟩) := by
  have key : d.sub i = if d.count.getD i 0 - 1 < 0 then Except.error Err.negativeCount
      else Except.ok ⟨d.sum - 1, d.count.set i (d.count.getD i 0 - 1),
        d.alpha, d.alphas⟩ := rfl
  constructor
  · constructor
    · intro he
      by_contra hge
      push_neg at hge
      rw [key, if_neg (by linarith)] at he
      cases he
    · intro hlt
      rw [key, if_pos (by linarith)]
  · intro hge
    rw [key, if_neg (by linarith)]

/-- C6 witness: a table whose single count is `1` is not failed by `sub`
exactly because `count[0] ≥ 1`. -/
theorem c6_witness :
    0 < (Dist.mk 1 [(1:ℚ)] 1 1).count.length
    ∧ ((Dist.mk 1 [(1:ℚ)] 1 1).sub 0 = .error .negativeCount
        ↔ (Dist.mk 1 [(1:ℚ)] 1 1).count.getD 0 0 < 1) :=
  ⟨by simp, (c6_sub_fails_iff _ 0 (by simp)).1⟩

/-- C4: for a well-formed table with positive `alpha` and
`alphas = alpha * categories`, the probability of a valid category `i` is
`(count[i] + alpha*sum) / (sum + alphas*sum)` whenever `sum ≠ 0`, and it is
`0` exactly when `sum == 0`. -/
theorem c4_probability_formula (d : Dist) (i : ℕ) (hwf : d.Wf)
    (ha : 0 < d.alpha) (has : d.alphas = d.alpha * (d.count.length : ℚ))
    (hi : i < d.count.length) :
    (d.sum ≠ 0 →
      d.p i = (d.count.getD i 0 + d.alpha * d.sum) / (d.sum + d.alphas * d.sum))
    ∧ (d.p i = 0 ↔ d.sum = 0) := by
  have hsum_nonneg : 0 ≤ d.sum := hwf.1 ▸ List.sum_nonneg hwf.2
  have hci : 0 ≤ d.count.getD i 0 := by
    rw [List.getD_eq_getElem?_getD, List.getElem?_eq_getElem hi]
    exact hwf.2 _ (List.getElem_mem hi)
  refine ⟨fun hs => by rw [Dist.p, if_neg hs], ?_, fun hs => by simp [Dist.p, hs]⟩
  intro hp
  by_contra hs
  have hspos : 0 < d.sum := lt_of_le_of_ne hsum_nonneg (Ne.symm hs)
  have halphas : 0 ≤ d.alphas := by
    rw [has]
    positivity
  have hnum : 0 < d.count.getD i 0 + d.alpha * d.sum :=
    add_pos_of_nonneg_of_pos hci (mul_pos ha hspos)
  have hden : 0 < d.sum + d.alphas * d.sum := by
    have := mul_nonneg halphas hsum_nonneg
    linarith
  rw [Dist.p, if_neg hs] at hp
  exact absurd hp (ne_of_gt (div_pos hnum hden))

/-- C4 witness: the table with counts `[1,0]`, `alpha = 1`, `alphas = 2` is
well-formed and its `p 0` vanishes exactly when its sum does (it does not). -/
theorem c4_witness :
    (Dist.mk 1 [(1:ℚ), 0] 1 2).Wf
    ∧ 0 < (Dist.mk 1 [(1:ℚ), 0] 1 2).alpha
    ∧ ((Dist.mk 1 [(1:ℚ), 0] 1 2).p 0 = 0 ↔ (Dist.mk 1 [(1:ℚ), 0] 1 2).sum = 0) := by
  have hwf : (Dist.mk 1 [(1:ℚ), 0] 1 2).Wf := by
    refine ⟨by norm_num, ?_⟩
    intro x hx
    simp at hx
    rcases hx with h | h <;> simp [h]
  exact ⟨hwf, by norm_num,
    (c4_probability_formula _ 0 hwf (by norm_num) (by norm_num) (by simp)).2⟩

/-- C8: `top(n)` returns `min n V` distinct valid categories whose counts
dominate every category left out (the `n` largest, in an unspecified order
among ties); with `n ≥ V` it returns every category exactly once, and
`top(0)` is empty. -/
theorem c8_top_largest (d : Dist) (n : ℕ) :
    (d.top n).length = min n d.count.length
    ∧ (d.top n).Nodup
    ∧ (∀ i ∈ d.top n, i < d.count.length)
    ∧ (∀ i ∈ d.top n, ∀ j, j < d.count.length → j ∉ d.top n →
        d.count.getD j 0 ≤ d.count.getD i 0)
    ∧ (d.count.length ≤ n → (d.top n).Perm (List.range d.count.length))
    ∧ d.top 0 = [] := by
  set le := fun i j : ℕ => decide (d.count.getD j 0 ≤ d.count.getD i 0) with hle
  set perm := (List.range d.count.length).mergeSort le with hperm
  have hpp : perm.Perm (List.range d.count.length) := List.mergeSort_perm _ _
  have hlen : perm.length = d.count.length := by simpa using hpp.length_eq
  have hnd : perm.Nodup := hpp.nodup_iff.mpr (List.nodup_range _)
  have htrans : ∀ a b c : ℕ, le a b = true → le b c = true → le a c = true := by
    intro a b c hab hbc
    simp only [hle, decide_eq_true_eq] at hab hbc ⊢
    exact le_trans hbc hab
  have htotal : ∀ a b : ℕ, (le a b || le b a) = true := by
    intro a b
    simp only [hle, Bool.or_eq_true, decide_eq_true_eq]
    exact le_total _ _
  have hsorted : List.Pairwise (fun a b => le a b = true) perm :=
    List.sorted_mergeSort htrans htotal _
  have htop : ∀ m : ℕ, d.top m = perm.take (if m > perm.length then perm.length else m) :=
    fun m => rfl
  have hmemperm : ∀ j, j < d.count.length → j ∈ perm := fun j hj =>
    hpp.mem_iff.mpr (List.mem_range.mpr hj)
  refine ⟨?_, ?_, ?_, ?_, ?_, ?_⟩
  · rw [htop, List.length_take, hlen]
    by_cases hc : n > d.count.length <;> simp [hc] <;> omega
  · exact List.Nodup.sublist (List.take_sublist _ _) hnd
  · intro i hi
    have : i ∈ perm := List.mem_of_mem_take hi
    exact List.mem_range.mp (hpp.mem_iff.mp this)
  · intro i hi j hj hjnot
    have hjperm : j ∈ perm := hmemperm j hj
    rw [htop] at hi hjnot
    have hsplit := List.take_append_drop (if n > perm.length then perm.length else n) perm
    have hjdrop : j ∈ perm.drop (if n > perm.length then perm.length else n) := by
      have := hsplit ▸ hjperm
      rcases List.mem_append.mp this with h | h
      · exact absurd h hjnot
      · exact h
    have hpw := hsplit ▸ hsorted
    have := (List.pairwise_append.mp hpw).2.2 i hi j hjdrop
    simpa only [hle, decide_eq_true_eq] using this
  · intro hsize
    rw [htop]
    by_cases hc : n > perm.length
    · simp only [hc, if_pos, List.take_length]
      exact hpp
    · have hn : n = perm.length := by omega
      rw [hn, if_neg (lt_irrefl perm.length), List.take_length]
      exact hpp
  · rw [htop]
    have : ¬ (0 > perm.length) := by omega
    simp [this]

/-- C8 witness: on a three-category table, `top 5` is a permutation of all
three categories and `top 0` is empty. -/
theorem c8_witness :
    (Dist.mk 6 [(3:ℚ), 1, 2] 0 0).count.length ≤ 5
    ∧ ((Dist.mk 6 [(3:ℚ), 1, 2] 0 0).top 5).Perm (List.range 3)
    ∧ (Dist.mk 6 [(3:ℚ), 1, 2] 0 0).top 0 = [] := by
  have h := c8_top_largest (Dist.mk 6 [(3:ℚ), 1, 2] 0 0) 5
  exact ⟨by simp, h.2.2.2.2.1 (by simp), h.2.2.2.2.2⟩

/-- One accumulation step of the puller thread (source lines 91-99):
`newTopics[t].add(w)` on a list of topic tables. -/
def distsAdd (ts : List Dist) (t w : ℕ) : List Dist :=
  match ts[t]? with
  | some dt => ts.set t (dt.add w)
  | none => ts

/-- All (word id, topic) pairs of the corpus in document order:
`docs[i][j]` paired with `doct[i][j]`. -/
def tokenPairs (docs doct : List (List ℕ)) : List (ℕ × ℕ) :=
  ((docs.zip doct).map (fun p => p.1.zip p.2)).flatten

/-- The merge of a round (the puller thread, source lines 91-99, over every
document reported done, source line 154): starting from fresh tables built by
`newDists` (source line 75), every token's end-of-round topic assignment is
added in. -/
def mergeTopics (k V : ℕ) (alpha : ℚ) (docs doct : List (List ℕ)) : List Dist :=
  (tokenPairs docs doct).foldl (fun ts p => distsAdd ts p.2 p.1) (newDists k V alpha)

/-- The count of word `w` summed across a list of topic tables. -/
def colSum (ts : List Dist) (w : ℕ) : ℚ :=
  (ts.map (fun d => d.count.getD w 0)).sum

/-- All tables hold `V` categories. -/
def TablesV (ts : List Dist) (V : ℕ) : Prop :=
  ∀ d ∈ ts, d.count.length = V

theorem add_count_length (d : Dist) (w : ℕ) :
    (d.add w).count.length = d.count.length := by
  simp [Dist.add]

theorem add_count_getD_self (d : Dist) (w : ℕ) (hw : w < d.count.length) :
    (d.add w).count.getD w 0 = d.count.getD w 0 + 1 := by
  simp [Dist.add, List.getD_eq_getElem?_getD, List.getElem?_set, hw]

theorem add_count_getD_ne (d : Dist) (w w' : ℕ) (hne : w' ≠ w) :
    (d.add w).count.getD w' 0 = d.count.getD w' 0 := by
  simp [Dist.add, List.getD_eq_getElem?_getD, List.getElem?_set, Ne.symm hne]

theorem distsAdd_cons_succ (d : Dist) (ts : List Dist) (t w : ℕ) :
    distsAdd (d :: ts) (t + 1) w = d :: distsAdd ts t w := by
  unfold distsAdd
  cases h : ts[t]? <;> simp [h]

theorem distsAdd_length (ts : List Dist) (t w : ℕ) :
    (distsAdd ts t w).length = ts.length := by
  unfold distsAdd
  cases h : ts[t]? <;> simp [h]

theorem distsAdd_tablesV (ts : List Dist) (t w V : ℕ) (hts : TablesV ts V) :
    TablesV (distsAdd ts t w) V := by
  unfold distsAdd
  cases h : ts[t]? with
  | none => exact hts
  | some dt =>
    intro d hd
    rcases List.mem_or_eq_of_mem_set hd with hmem | heq
    · exact hts d hmem
    · rw [heq, add_count_length]
      exact hts dt (List.getElem?_mem h)

theorem colSum_distsAdd_self : ∀ (ts : List Dist) (t w V : ℕ),
    TablesV ts V → t < ts.length → w < V →
    colSum (distsAdd ts t w) w = colSum ts w + 1
  | [], t, w, V, _, ht, _ => absurd ht (by simp)
  | d :: ts, 0, w, V, hts, _, hw => by
    have hd : d.count.length = V := hts d (List.mem_cons_self d ts)
    simp only [distsAdd, List.getElem?_cons_zero, List.set_cons_zero, colSum, List.map_cons,
      List.sum_cons]
    rw [add_count_getD_self d w (hd ▸ hw)]
    ring
  | d :: ts, t + 1, w, V, hts, ht, hw => by
    rw [distsAdd_cons_succ]
    simp only [colSum, List.map_cons, List.sum_cons]
    have : colSum (distsAdd ts t w) w = colSum ts w + 1 :=
      colSum_distsAdd_self ts t w V (fun x hx => hts x (List.mem_cons_of_mem d hx))
        (by simpa using ht) hw
    simp only [colSum] at this
    rw [this]
    ring

theorem colSum_distsAdd_ne : ∀ (ts : List Dist) (t w w' : ℕ), w' ≠ w →
    colSum (distsAdd ts t w) w' = colSum ts w'
  | [], t, w, w', _ => by
    unfold distsAdd
    simp
  | d :: ts, 0, w, w', hne => by
    simp only [distsAdd, List.getElem?_cons_zero, List.set_cons_zero, colSum, List.map_cons,
      List.sum_cons]
    rw [add_count_getD_ne d w w' hne]
  | d :: ts, t + 1, w, w', hne => by
    rw [distsAdd_cons_succ]
    simp only [colSum, List.map_cons, List.sum_cons]
    have := colSum_distsAdd_ne ts t w w' hne
    simp only [colSum] at this
    rw [this]

theorem colSum_merge_fold : ∀ (ps : List (ℕ × ℕ)) (ts : List Dist) (V w : ℕ),
    TablesV ts V → (∀ p ∈ ps, p.2 < ts.length) → w < V →
    colSum (ps.foldl (fun ts p => distsAdd ts p.2 p.1) ts) w
      = colSum ts w + (ps.countP (fun p => p.1 == w) : ℚ)
  | [], ts, V, w, _, _, _ => by simp
  | (w0, t0) :: ps, ts, V, w, hts, htop, hw => by
    simp only [List.foldl_cons, List.countP_cons]
    have hts2 : TablesV (distsAdd ts t0 w0) V := distsAdd_tablesV ts t0 w0 V hts
    have htop2 : ∀ p ∈ ps, p.2 < (distsAdd ts t0 w0).length := by
      intro p hp
      rw [distsAdd_length]
      exact htop p (List.mem_cons_of_mem _ hp)
    rw [colSum_merge_fold ps (distsAdd ts t0 w0) V w hts2 htop2 hw]
    by_cases hww : w0 = w
    · subst hww
      rw [colSum_distsAdd_self ts t0 w0 V hts (htop (w0, t0) (List.mem_cons_self _ _)) hw]
      simp
      ring
    · rw [colSum_distsAdd_ne ts t0 w0 w (Ne.symm hww)]
      simp [hww]

theorem replicate_getD_zero (V w : ℕ) : (List.replicate V (0:ℚ)).getD w 0 = 0 := by
  rw [List.getD_eq_getElem?_getD, List.getElem?_replicate]
  split <;> simp

theorem newDists_tablesV (k V : ℕ) (alpha : ℚ) : TablesV (newDists k V alpha) V := by
  intro d hd
  rw [List.eq_of_mem_replicate hd]
  simp [newDist]

theorem newDists_length (k V : ℕ) (alpha : ℚ) : (newDists k V alpha).length = k := by
  simp [newDists]

theorem colSum_newDists (k V : ℕ) (alpha : ℚ) (w : ℕ) :
    colSum (newDists k V alpha) w = 0 := by
  simp [colSum, newDists, newDist, replicate_getD_zero]

theorem zip_countP_fst (w : ℕ) : ∀ (a b : List ℕ), a.length = b.length →
    (a.zip b).countP (fun p => p.1 == w) = a.count w
  | [], [], _ => rfl
  | [], _ :: _, h => by simp at h
  | _ :: _, [], h => by simp at h
  | x :: xs, y :: ys, h => by
    simp only [List.zip_cons_cons, List.countP_cons, List.count_cons]
    rw [zip_countP_fst w xs ys (by simpa using h)]

theorem tokenPairs_countP (docs doct : List (List ℕ))
    (hshape : List.Forall₂ (fun a b : List ℕ => a.length = b.length) docs doct) (w : ℕ) :
    (tokenPairs docs doct).countP (fun p => p.1 == w) = (docs.flatten).count w := by
  induction hshape with
  | nil => rfl
  | @cons a b as bs hab _ ih =>
    simp only [tokenPairs, List.zip_cons_cons, List.map_cons, List.flatten_cons,
      List.countP_append, List.count_append]
    rw [zip_countP_fst w a b hab]
    simp only [tokenPairs] at ih
    rw [ih]

theorem tokenPairs_topic_mem (docs doct : List (List ℕ)) :
    ∀ p ∈ tokenPairs docs doct, p.2 ∈ doct.flatten := by
  intro p hp
  unfold tokenPairs at hp
  rcases List.mem_flatten.mp hp with ⟨l, hl, hpl⟩
  rcases List.mem_map.mp hl with ⟨q, hq, rfl⟩
  obtain ⟨p1, p2⟩ := p
  obtain ⟨q1, q2⟩ := q
  have hzq := List.of_mem_zip hq
  have hzp := List.of_mem_zip hpl
  exact List.mem_flatten.mpr ⟨q2, hzq.2, hzp.2⟩

/-- C3: after a round's merge, for every word `w` in range, the sum of `w`'s
count across the `k` merged topic tables equals the number of occurrences of
`w` in the corpus, for any in-range end-of-round assignment of the same shape
as the corpus. -/
theorem c3_count_conservation (k V : ℕ) (alpha : ℚ) (docs doct : List (List ℕ))
    (hshape : List.Forall₂ (fun a b : List ℕ => a.length = b.length) docs doct)
    (htop : ∀ t ∈ doct.flatten, t < k) (w : ℕ) (hw : w < V) :
    colSum (mergeTopics k V alpha docs doct) w = ((docs.flatten).count w : ℚ) := by
  unfold mergeTopics
  rw [colSum_merge_fold (tokenPairs docs doct) (newDists k V alpha) V w
    (newDists_tablesV k V alpha)
    (fun p hp => by
      rw [newDists_length]
      exact htop p.2 (tokenPairs_topic_mem docs doct p hp)) hw]
  rw [colSum_newDists, tokenPairs_countP docs doct hshape w, zero_add]

/-- C3 witness: corpus `[[0,1],[0]]` with assignment `[[1,0],[0]]`, two
topics, two words: the merged tables conserve the count of word `0`. -/
theorem c3_witness :
    List.Forall₂ (fun a b : List ℕ => a.length = b.length) [[0,1],[0]] [[1,0],[0]]
    ∧ (∀ t ∈ ([[1,0],[0]] : List (List ℕ)).flatten, t < 2)
    ∧ colSum (mergeTopics 2 2 1 [[0,1],[0]] [[1,0],[0]]) 0
        = ((([[0,1],[0]] : List (List ℕ)).flatten).count 0 : ℚ) := by
  have hshape : List.Forall₂ (fun a b : List ℕ => a.length = b.length)
      [[0,1],[0]] [[1,0],[0]] := by
    refine List.Forall₂.cons rfl (List.Forall₂.cons rfl List.Forall₂.nil)
  exact ⟨hshape, by decide,
    c3_count_conservation 2 2 1 [[0,1],[0]] [[1,0],[0]] hshape (by decide) 0 (by decide)⟩

theorem wf_count_all_zero (d : Dist) (hwf : d.Wf) (h0 : d.sum = 0) :
    ∀ x ∈ d.count, x = 0 := by
  intro x hx
  by_contra hne
  have hlt : 0 < x := lt_of_le_of_ne (hwf.2 x hx) (Ne.symm hne)
  have hle : x ≤ d.count.sum := List.single_le_sum hwf.2 x hx
  rw [← hwf.1, h0] at hle
  linarith

theorem dist_eq_replicate_nan (d : Dist) (hwf : d.Wf) (h0 : d.sum = 0) :
    d.dist = List.replicate d.count.length FVal.nan := by
  have hz := wf_count_all_zero d hwf h0
  rw [List.eq_replicate_iff]
  refine ⟨by simp [Dist.dist], ?_⟩
  intro v hv
  rcases List.mem_map.mp hv with ⟨c, hc, rfl⟩
  rw [hz c hc, h0]
  simp [fdiv]

theorem newDist_wf (n : ℕ) (alpha : ℚ) : (newDist n alpha).Wf := by
  constructor
  · simp [newDist]
  · intro x hx
    rw [List.eq_of_mem_replicate hx]

theorem foldl_distsAdd_untouched : ∀ (ps : List (ℕ × ℕ)) (ts : List Dist) (t : ℕ),
    (∀ p ∈ ps, p.2 ≠ t) →
    (ps.foldl (fun ts p => distsAdd ts p.2 p.1) ts)[t]? = ts[t]?
  | [], _, _, _ => rfl
  | (w0, t0) :: ps, ts, t, h => by
    simp only [List.foldl_cons]
    rw [foldl_distsAdd_untouched ps (distsAdd ts t0 w0) t
      (fun p hp => h p (List.mem_cons_of_mem _ hp))]
    have ht0 : t0 ≠ t := h (w0, t0) (List.mem_cons_self _ _)
    unfold distsAdd
    cases hg : ts[t0]? with
    | none => rfl
    | some dt => simp [List.getElem?_set, ht0]

/-- C10: `dist()` divides by the sum with no `sum == 0` guard, so on a
well-formed table that was never added to, every returned entry is `0/0`,
i.e. NaN — while `p(i)`, which has the guard, returns `0`. Consequently a
topic to which no token is assigned at the merge keeps its fresh all-zero
table, whose output row is all NaN. -/
theorem c10_unguarded_division_nan (d : Dist) (hwf : d.Wf) (h0 : d.sum = 0) :
    d.dist = List.replicate d.count.length FVal.nan
    ∧ (∀ i, d.p i = 0)
    ∧ (∀ (k V : ℕ) (alpha : ℚ) (docs doct : List (List ℕ)) (t : ℕ),
        (∀ p ∈ tokenPairs docs doct, p.2 ≠ t) → t < k →
        (mergeTopics k V alpha docs doct)[t]? = some (newDist V alpha)
        ∧ (newDist V alpha).dist = List.replicate V FVal.nan) := by
  refine ⟨dist_eq_replicate_nan d hwf h0, fun i => by simp [Dist.p, h0], ?_⟩
  intro k V alpha docs doct t hnone htk
  constructor
  · rw [mergeTopics, foldl_distsAdd_untouched (tokenPairs docs doct) _ t hnone]
    simp [newDists, List.getElem?_replicate, htk]
  · have := dist_eq_replicate_nan (newDist V alpha) (newDist_wf V alpha) rfl
    simpa [newDist] using this

/-- C10 witness: a fresh two-category table is well-formed with zero sum, and
its `dist()` output is a NaN row while `p` is identically zero. -/
theorem c10_witness :
    (newDist 2 1).Wf
    ∧ (newDist 2 1).sum = 0
    ∧ (newDist 2 1).dist = List.replicate (newDist 2 1).count.length FVal.nan
    ∧ (∀ i, (newDist 2 1).p i = 0) := by
  have h := c10_unguarded_division_nan (newDist 2 1) (newDist_wf 2 1) rfl
  exact ⟨newDist_wf 2 1, rfl, h.1, h.2.1⟩

/-- The rebuild of the document-topic table at the start of a document
(source lines 124-127): `d := newDist(k, 0.1/k)`, then `d.add(doct[i][j])`
for each position in order; a prefix of the row models the loop
mid-execution. -/
def buildDocDist (k : ℕ) (alpha : ℚ) (row : List ℕ) : Dist :=
  row.foldl (fun d t => d.add t) (newDist k alpha)

/-- The state a worker mutates while resampling one document: the
document-topic table `d`, its private topic-word tables `myTopics`, and the
document's assignment row `doct[i]`. -/
structure WorkerSt where
  d : Dist
  myTopics : List Dist
  row : List ℕ
deriving DecidableEq

/-- `myTopics[t].sub(w)` on a list of topic tables. -/
def distsSub (ts : List Dist) (t w : ℕ) : Except Err (List Dist) :=
  match ts[t]? with
  | some dt => (dt.sub w).map (fun dt2 => ts.set t dt2)
  | none => .ok ts

/-- One iteration of the reassignment loop (source lines 130-151) at token
position `j`: unassign the current topic `doct[i][j]` from both tables,
compute the `k` topic weights `d.p(kk) * myTopics[kk].p(word)`, draw the new
topic, reassign it into both tables, and write the new label into the row. -/
def resampleTok (k : ℕ) (words : List ℕ) (u : ℕ) (r : ℚ) (st : WorkerSt) (j : ℕ) :
    Except Err WorkerSt := do
  let d ← st.d.sub (st.row.getD j 0)
  let tp ← distsSub st.myTopics (st.row.getD j 0) (words.getD j 0)
  let t2 ← pickRandom ((List.range k).map
    (fun kk => d.p kk * ((tp.getD kk (newDist 0 0)).p (words.getD j 0)))) u r
  pure ⟨d.add t2, distsAdd tp t2 (words.getD j 0), st.row.set j t2⟩

/-- The reassignment loop over the token positions `js`, with per-position
random oracles. -/
def resampleSteps (k : ℕ) (words : List ℕ) (us : ℕ → ℕ) (rs : ℕ → ℚ) :
    WorkerSt → List ℕ → Except Err WorkerSt
  | st, [] => .ok st
  | st, j :: js => do
    let st2 ← resampleTok k words (us j) (rs j) st j
    resampleSteps k words us rs st2 js

theorem add_sum (d : Dist) (i : ℕ) : (d.add i).sum = d.sum + 1 := rfl

theorem sub_sum (d d' : Dist) (i : ℕ) (h : d.sub i = .ok d') : d'.sum = d.sum - 1 := by
  have key : d.sub i = if d.count.getD i 0 - 1 < 0 then Except.error Err.negativeCount
      else Except.ok ⟨d.sum - 1, d.count.set i (d.count.getD i 0 - 1),
        d.alpha, d.alphas⟩ := rfl
  rw [key] at h
  split at h
  · cases h
  · simp only [Except.ok.injEq] at h
    rw [← h]

theorem foldl_add_sum : ∀ (row : List ℕ) (d : Dist),
    (row.foldl (fun d t => d.add t) d).sum = d.sum + row.length
  | [], d => by simp
  | t :: row, d => by
    rw [List.foldl_cons, foldl_add_sum row (d.add t), add_sum, List.length_cons]
    push_cast
    ring

theorem resampleTok_sum (k : ℕ) (words : List ℕ) (u : ℕ) (r : ℚ) (st st2 : WorkerSt)
    (j : ℕ) (h : resampleTok k words u r st j = .ok st2) : st2.d.sum = st.d.sum := by
  unfold resampleTok at h
  cases hsub : st.d.sub (st.row.getD j 0) with
  | error e =>
    rw [hsub] at h
    simp [Bind.bind, Except.bind] at h
  | ok d =>
    rw [hsub] at h
    simp only [Bind.bind, Except.bind] at h
    cases hts : distsSub st.myTopics (st.row.getD j 0) (words.getD j 0) with
    | error e =>
      rw [hts] at h
      simp at h
    | ok tp =>
      rw [hts] at h
      simp only [] at h
      cases hpick : pickRandom ((List.range k).map
          (fun kk => d.p kk * ((tp.getD kk (newDist 0 0)).p (words.getD j 0)))) u r with
      | error e =>
        rw [hpick] at h
        simp at h
      | ok t2 =>
        rw [hpick] at h
        simp only [pure, Except.pure, Except.ok.injEq] at h
        rw [← h]
        show (d.add t2).sum = st.d.sum
        rw [add_sum, sub_sum st.d d _ hsub]
        ring

theorem resampleSteps_sum : ∀ (js : List ℕ) (k : ℕ) (words : List ℕ) (us : ℕ → ℕ)
    (rs : ℕ → ℚ) (st st2 : WorkerSt),
    resampleSteps k words us rs st js = .ok st2 → st2.d.sum = st.d.sum
  | [], k, words, us, rs, st, st2, h => by
    simp only [resampleSteps, Except.ok.injEq] at h
    rw [← h]
  | j :: js, k, words, us, rs, st, st2, h => by
    unfold resampleSteps at h
    cases htok : resampleTok k words (us j) (rs j) st j with
    | error e =>
      rw [htok] at h
      simp [Bind.bind, Except.bind] at h
    | ok st1 =>
      rw [htok] at h
      simp only [Bind.bind, Except.bind] at h
      rw [resampleSteps_sum js k words us rs st1 st2 h,
        resampleTok_sum k words (us j) (rs j) st st1 j htok]

/-- C2 amended: during the rebuild loop the document-topic table's sum equals
the number of tokens processed so far (`j` after `j` adds); during the
subsequent token-resampling loop the sum is invariant — at every token
boundary it equals the document's total token count, not the number of
tokens resampled so far. -/
theorem c2_docsum_amended (k : ℕ) (alpha : ℚ) (words row : List ℕ)
    (us : ℕ → ℕ) (rs : ℕ → ℚ) (tp : List Dist) :
    (∀ j, j ≤ row.length → (buildDocDist k alpha (row.take j)).sum = j)
    ∧ (∀ js st2,
        resampleSteps k words us rs ⟨buildDocDist k alpha row, tp, row⟩ js = .ok st2 →
        st2.d.sum = row.length) := by
  constructor
  · intro j hj
    rw [buildDocDist, foldl_add_sum]
    simp [newDist, List.length_take, Nat.min_eq_left hj]
  · intro js st2 h
    rw [resampleSteps_sum js k words us rs _ st2 h]
    simp only [buildDocDist, foldl_add_sum, newDist]
    ring

/-- C2 counterexample: a two-token document (`words = [0,1]`, row `[0,1]`)
after resampling its FIRST token only: the document-topic table's sum is `2`
(the document length), not `1` (the number of tokens processed so far), so
the claimed running-sum invariant fails inside the resampling loop. -/
theorem c2_counterexample :
    resampleSteps 2 [0, 1] (fun _ => 0) (fun _ => 0)
      ⟨buildDocDist 2 1 [0, 1], [Dist.mk 1 [1, 0] 1 2, Dist.mk 1 [0, 1] 1 2], [0, 1]⟩ [0]
      = .ok ⟨Dist.mk 2 [1, 1] 1 2, [Dist.mk 1 [1, 0] 1 2, Dist.mk 1 [0, 1] 1 2], [0, 1]⟩
    ∧ (Dist.mk 2 [(1:ℚ), 1] 1 2).sum ≠ (1 : ℚ) := by
  constructor
  · norm_num [resampleSteps, resampleTok, buildDocDist, newDist, Dist.add, Dist.sub,
      distsSub, distsAdd, Dist.p, pickRandom, scanLen, Except.instMonad, Except.bind,
      Except.map, pure, Except.pure, List.getD, List.replicate, List.range_succ,
      List.set_cons_zero, List.set_cons_succ]
  · norm_num

/-- C2 amended witness: on the same two-token document, the rebuild prefix
sums are `0,1,2` and the resampling loop leaves the sum at `2`. -/
theorem c2_amended_witness :
    (1 ≤ ([0, 1] : List ℕ).length
      ∧ (buildDocDist 2 1 ([0, 1].take 1)).sum = 1)
    ∧ (resampleSteps 2 [0, 1] (fun _ => 0) (fun _ => 0)
        ⟨buildDocDist 2 1 [0, 1], [Dist.mk 1 [1, 0] 1 2, Dist.mk 1 [0, 1] 1 2], [0, 1]⟩ [0]
        = .ok ⟨Dist.mk 2 [1, 1] 1 2, [Dist.mk 1 [1, 0] 1 2, Dist.mk 1 [0, 1] 1 2], [0, 1]⟩ →
        (Dist.mk 2 [(1:ℚ), 1] 1 2).sum = ([0, 1] : List ℕ).length) := by
  have h := c2_docsum_amended 2 1 [0, 1] [0, 1] (fun _ => 0) (fun _ => 0)
    [Dist.mk 1 [1, 0] 1 2, Dist.mk 1 [0, 1] 1 2]
  exact ⟨⟨by simp, h.1 1 (by simp)⟩, fun hrun => h.2 [0] _ hrun⟩

/-- Panics of the `LdaThreads` input validation (source lines 26-46). -/
inductive LdaErr where
  /-- "k must be positive." -/
  | nonPositiveK
  /-- "Number of threads must be positive." -/
  | nonPositiveThreads
  /-- "Found 0 words in documents." -/
  | emptyVocab
deriving DecidableEq

/-- The word map built in source lines 36-43, as the list of distinct words
in first-appearance order (`words[word] = len(words)` assigns ids in that
order, so the id of a word is its position in this list). -/
def buildWords (docTokens : List (List String)) : List String :=
  docTokens.foldl (fun acc doc =>
    doc.foldl (fun a w => if w ∈ a then a else a ++ [w]) acc) []

/-- Token-to-id conversion (source lines 48-55). -/
def docsOf (docTokens : List (List String)) : List (List ℕ) :=
  docTokens.map (fun doc => doc.map (fun w => (buildWords docTokens).indexOf w))

/-- The initial random assignment (source lines 60-68): each token in
document order receives `rand.Intn(k)`, modelled by the oracle value at the
token's global position taken modulo `k`. -/
def initAssign (k : ℕ) (assign : ℕ → ℕ) : ℕ → List (List ℕ) → List (List ℕ)
  | _, [] => []
  | pos, doc :: rest =>
    (List.range doc.length).map (fun j => assign (pos + j) % k)
      :: initAssign k assign (pos + doc.length) rest

/-- The validation and initialization phase of `LdaThreads` (source lines
26-68): the three up-front checks in source order — `k < 1`,
`numThreads < 1`, then vocabulary construction and the zero-vocabulary
check — and only then the id conversion, the initial topic assignment and
the initial topic tables (`topics[t].add(docs[i][j])` is the same
accumulation as the round merge). Any failed check aborts with the
corresponding panic before any topic assignment exists. -/
def ldaSetup (docTokens : List (List String)) (k numThreads : ℤ)
    (assign : ℕ → ℕ) :
    Except LdaErr (List (List ℕ) × List (List ℕ) × List Dist × List String) :=
  if k < 1 then .error .nonPositiveK
  else if numThreads < 1 then .error .nonPositiveThreads
  else
    let words := buildWords docTokens
    if words.length = 0 then .error .emptyVocab
    else
      let docs := docsOf docTokens
      let doct := initAssign k.toNat assign 0 docs
      .ok (docs, doct,
        mergeTopics k.toNat words.length ((1/10) / (words.length : ℚ)) docs doct,
        words)

/-- C7: the sampler call checks `k ≥ 1`, worker count `≥ 1` and vocabulary
size `> 0` before any sampling work, each violation aborting the whole call
with the corresponding invalid-argument panic and producing no output (the
error paths precede the initial topic assignment); conversely, an error can
only arise from one of the three checks. -/
theorem c7_validation (docTokens : List (List String)) (k numThreads : ℤ)
    (assign : ℕ → ℕ) :
    (k < 1 → ldaSetup docTokens k numThreads assign = .error .nonPositiveK)
    ∧ (1 ≤ k → numThreads < 1 →
        ldaSetup docTokens k numThreads assign = .error .nonPositiveThreads)
    ∧ (1 ≤ k → 1 ≤ numThreads → (buildWords docTokens).length = 0 →
        ldaSetup docTokens k numThreads assign = .error .emptyVocab)
    ∧ (∀ e, ldaSetup docTokens k numThreads assign = .error e →
        k < 1 ∨ numThreads < 1 ∨ (buildWords docTokens).length = 0) := by
  refine ⟨fun h1 => by simp [ldaSetup, h1], fun h1 h2 => ?_, fun h1 h2 h3 => ?_, ?_⟩
  · simp [ldaSetup, not_lt.mpr h1, h2]
  · simp [ldaSetup, not_lt.mpr h1, not_lt.mpr h2, h3]
  · intro e he
    by_contra hcon
    push_neg at hcon
    obtain ⟨hk, ht, hv⟩ := hcon
    simp [ldaSetup, not_lt.mpr hk, not_lt.mpr ht, hv] at he

/-- C7 witness: `k = 0`, worker count `0`, and an all-empty corpus each
abort with the corresponding invalid-argument panic. -/
theorem c7_witness :
    ((0:ℤ) < 1 ∧ ldaSetup [["a"]] 0 1 (fun _ => 0) = .error .nonPositiveK)
    ∧ ((1:ℤ) ≤ 1 ∧ (0:ℤ) < 1
        ∧ ldaSetup [["a"]] 1 0 (fun _ => 0) = .error .nonPositiveThreads)
    ∧ ((buildWords [[], []]).length = 0
        ∧ ldaSetup [[], []] 1 1 (fun _ => 0) = .error .emptyVocab) :=
  ⟨⟨by norm_num, (c7_validation [["a"]] 0 1 (fun _ => 0)).1 (by norm_num)⟩,
   ⟨le_refl 1, by norm_num,
     (c7_validation [["a"]] 1 0 (fun _ => 0)).2.1 (le_refl 1) (by norm_num)⟩,
   ⟨rfl, (c7_validation [[], []] 1 1 (fun _ => 0)).2.2.1 (le_refl 1) (le_refl 1) rfl⟩⟩

end nlp
